import Mathlib

/-!
Verification development for submod.py, a command line tool that shifts every
timestamp of an .srt or .vtt subtitle file by a fixed number of seconds.

Shallow embedding conventions:
  - Python strings are modelled as List Char; slicing s[a:b] becomes pySlice.
  - Python float arithmetic is idealised as exact rational arithmetic (Rat).
    The numeric literals reachable in this program are short decimal fractions,
    so the idealisation agrees with the binary floats everywhere the theorems
    below evaluate them; every concrete input used in a counterexample or
    witness was chosen away from representation and rounding boundaries so the
    verdict is insensitive to the idealisation.
  - Formatting with a fixed number of decimals rounds half to even, which is
    what the CPython float formatter does on the underlying value.
  - int(s) and float(s) are modelled on digit-shaped strings and return none
    (the model of an uncaught ValueError) on other strings; Python would also
    accept some exotic shapes (whitespace, signs, exponents) that cannot reach
    these call sites through the line-shape regex of the converter.
  - str.format is modelled for the escape sequences and the one replacement
    field that the program itself builds; any other replacement field makes the
    model return none. CPython would additionally substitute a stray literal
    field such as index 0 in a filename, but it raises on every brace usage
    exercised by the theorems below, exactly as the model does.
-/

attribute [local semireducible] Rat.add Rat.mul Rat.sub Rat.inv Rat.ofScientific

namespace Submod

/-- The character of a single decimal digit. -/
def digitChar (n : ℕ) : Char := Char.ofNat (48 + n)

/-- Decimal digit test, the character class d of the regexes in submod.py. -/
def isDig (c : Char) : Bool := decide ('0' ≤ c) && decide (c ≤ '9')

/-- Numeric value of a digit character. -/
def digVal (c : Char) : ℕ := c.toNat - 48

/-- Value of a string of decimal digits. -/
def digitsVal (cs : List Char) : ℕ := cs.foldl (fun a c => 10 * a + digVal c) 0

/-- Python slice s[a:b] for 0 ≤ a ≤ b, on the list-of-characters model. -/
def pySlice (cs : List Char) (a b : ℕ) : List Char := (cs.drop a).take (b - a)

/-- Model of int(s): the value of a nonempty all-digit string, none otherwise. -/
def pyInt (cs : List Char) : Option ℕ :=
  if cs ≠ [] ∧ cs.all isDig then some (digitsVal cs) else none

/-- Model of float(s) on plain decimal strings: an optional integer part and an
optional fractional part separated by one period, at least one digit in all.
Any other string gives none. -/
def pyFloat (cs : List Char) : Option ℚ :=
  let ip := cs.takeWhile (fun c => c ≠ '.')
  match cs.drop ip.length with
  | [] => if ip ≠ [] ∧ ip.all isDig then some ((digitsVal ip : ℚ)) else none
  | _ :: fr =>
      if (ip ≠ [] ∨ fr ≠ []) ∧ ip.all isDig ∧ fr.all isDig then
        some ((digitsVal ip : ℚ) + (digitsVal fr : ℚ) / 10 ^ fr.length)
      else none

/-- Decimal rendering of a natural number, by fuel over the digit count. -/
def natCharsAux : ℕ → ℕ → List Char
  | 0, _ => []
  | fuel + 1, n =>
      if n < 10 then [digitChar n]
      else natCharsAux fuel (n / 10) ++ [digitChar (n % 10)]

/-- Decimal rendering of a natural number (the digits str(n) would print). -/
def natChars (n : ℕ) : List Char := natCharsAux (n + 1) n

/-- Round half to even, the rounding CPython applies when formatting a value
with a fixed number of decimals. -/
def roundHalfEven (q : ℚ) : ℤ :=
  let f := ⌊q⌋
  let r := q - f
  if r < 1 / 2 then f else if 1 / 2 < r then f + 1 else if f % 2 = 0 then f else f + 1

/-- Python modulo on rationals with a positive modulus, time % m. -/
def qmod (a b : ℚ) : ℚ := a - b * ⌊a / b⌋

/-- The format item 02d: zero padded to width two. -/
def fmt2 (n : ℕ) : List Char :=
  if n < 100 then [digitChar (n / 10), digitChar (n % 10)] else natChars n

/-- The format item 06.3f: three decimals, zero padded to width six. -/
def fmt63 (q : ℚ) : List Char :=
  let n := (roundHalfEven (1000 * q)).toNat
  let base := natChars (n / 1000) ++
    '.' :: [digitChar (n % 1000 / 100), digitChar (n % 1000 / 10 % 10), digitChar (n % 1000 % 10)]
  List.replicate (6 - base.length) '0' ++ base

/-- The whole format string of process_time, 02d : 02d : 06.3f, applied to a
nonnegative number of seconds exactly as the source decomposes it. -/
def formatQ (time : ℚ) : List Char :=
  fmt2 (⌊time / 3600⌋.toNat) ++
  ':' :: fmt2 (⌊qmod time 3600 / 60⌋.toNat) ++
  ':' :: fmt63 (qmod (qmod time 3600) 60)

/-- The parsing half of process_time: hours from chars 0-2, minutes from
chars 3-5, seconds from chars 6-12, combined into total seconds. -/
def parseTS (ts : List Char) : Option ℚ :=
  match pyInt (pySlice ts 0 2), pyInt (pySlice ts 3 5), pyFloat (pySlice ts 6 12) with
  | some hrs, some mins, some secs => some ((hrs : ℚ) * 3600 + (mins : ℚ) * 60 + secs)
  | _, _, _ => none

/-- The deletion sentinel of submod.py. -/
def DELETED : List Char := ['(', 'D', 'E', 'L', 'E', 'T', 'E', 'D', ')', '\n', '\n']

/-- process_time from submod.py: parse the fixed width time string, add incr
seconds, and either reformat the nonnegative total or return the sentinel. -/
def process_time (ts : List Char) (incr : ℚ) : Option (List Char) :=
  match parseTS ts with
  | none => none
  | some t =>
    let time := t + incr
    if 0 ≤ time then some (formatQ time) else some DELETED

/-- process_line from submod.py: shift the two endpoints sliced at 0-12 and
17-29 and rebuild the line according to which endpoints were deleted. -/
def process_line (line : List Char) (seconds : ℚ) : Option (List Char) :=
  match process_time (pySlice line 0 12) seconds with
  | none => none
  | some start =>
    match process_time (pySlice line 17 29) seconds with
    | none => none
    | some e =>
      if start = DELETED then
        if e = DELETED then some DELETED
        else some ("00:00:00.000 --> ".toList ++ e ++ ['\n'])
      else some (start ++ " --> ".toList ++ e ++ ['\n'])

/-- The time-line regex of the converters, two digits, colon, two digits,
colon, two digits, separator, three digits, matched at the start of the line.
The separator is a period in convert_vtt and a comma in convert_srt. -/
def timeLineMatch (sep : Char) : List Char → Bool
  | c0 :: c1 :: c2 :: c3 :: c4 :: c5 :: c6 :: c7 :: c8 :: c9 :: c10 :: c11 :: _ =>
      isDig c0 && isDig c1 && (c2 == ':') && isDig c3 && isDig c4 && (c5 == ':') &&
      isDig c6 && isDig c7 && (c8 == sep) && isDig c9 && isDig c10 && isDig c11
  | _ => false

/-- Python str.replace with one-character arguments, replacing every
occurrence. -/
def pyReplace (cs : List Char) (old nw : Char) : List Char :=
  cs.map fun c => if c = old then nw else c

/-- The shared loop body of convert_vtt and convert_srt, which differ only in
the separator of the time-line regex and in the comma translation steps that
convert_srt applies around process_line. Lines of the input file are the list
elements and carry their trailing newline. The state is the skip flag and the
running count of deleted subtitles; none models an uncaught exception. When a
time line matches, the processed line is written even when it is the deletion
sentinel, since the source has no continue statement on that path; while skip
is set, non-matching lines are discarded up to and including the first blank
line. -/
def convertLines (sep : Char) (seconds : ℚ) :
    List (List Char) → Bool → ℕ → Option (List (List Char) × ℕ)
  | [], _, count => some ([], count)
  | line :: rest, skip, count =>
    if timeLineMatch sep line then
      let cline := if sep = ',' then pyReplace line ',' '.' else line
      match process_line cline seconds with
      | none => none
      | some nl =>
        if nl = DELETED then
          match convertLines sep seconds rest true (count + 1) with
          | none => none
          | some (out, c) => some (nl :: out, c)
        else
          let nl2 := if sep = ',' then pyReplace nl '.' ',' else nl
          match convertLines sep seconds rest skip count with
          | none => none
          | some (out, c) => some (nl2 :: out, c)
    else
      if skip then
        if line = ['\n'] then convertLines sep seconds rest false count
        else convertLines sep seconds rest true count
      else
        match convertLines sep seconds rest skip count with
        | none => none
        | some (out, c) => some (line :: out, c)

/-- convert_vtt from submod.py, as a pure function from the list of input
lines to the list of written lines and the deleted-subtitle count. -/
def convert_vtt (lines : List (List Char)) (seconds : ℚ) :
    Option (List (List Char) × ℕ) :=
  convertLines '.' seconds lines false 0

/-- convert_srt from submod.py, as a pure function from the list of input
lines to the list of written lines and the deleted-subtitle count. -/
def convert_srt (lines : List (List Char)) (seconds : ℚ) :
    Option (List (List Char) × ℕ) :=
  convertLines ',' seconds lines false 0

/-- The literal input_prefix string of name_output, with doubled braces as in
the source. -/
def tagTemplate : List Char :=
  ['{', '{', '{', '0', ':', '.', '2', 'f', '}', '_', 'S', 'e', 'c', '}', '}', '_']

/-- The six characters that close an offset tag. -/
def tagClose : List Char := ['_', 'S', 'e', 'c', '}', '_']

/-- The anchored regex of name_output that recognises an already processed
filename: open brace, sign, digits, period, digits, then the closing
characters. Returns the remainder of the filename after the matched tag. -/
def matchProcTag : List Char → Option (List Char)
  | c0 :: c1 :: rest =>
    if c0 = '{' ∧ (c1 = '+' ∨ c1 = '-') then
      let ds := rest.takeWhile isDig
      if ds = [] then none else
      match rest.drop ds.length with
      | '.' :: r2 =>
        let ds2 := r2.takeWhile isDig
        if ds2 = [] then none else
        (match r2.drop ds2.length with
         | '_' :: 'S' :: 'e' :: 'c' :: '}' :: '_' :: r3 => some r3
         | _ => none)
      | _ => none
    else none
  | _ => none

/-- One attempt of the number regex, sign, digits, period, digits, at the head
of the string, returning the float value of the matched text. -/
def matchNumAt : List Char → Option ℚ
  | [] => none
  | c :: rest =>
    if c = '+' ∨ c = '-' then
      let ds := rest.takeWhile isDig
      if ds = [] then none else
      match rest.drop ds.length with
      | '.' :: r2 =>
        let ds2 := r2.takeWhile isDig
        if ds2 = [] then none
        else some ((if c = '-' then (-1 : ℚ) else 1) *
                   ((digitsVal ds : ℚ) + (digitsVal ds2 : ℚ) / 10 ^ ds2.length))
      | _ => none
    else none

/-- re.search of the number regex: the leftmost match in the string. -/
def searchNumber : List Char → Option ℚ
  | [] => none
  | c :: rest =>
    match matchNumAt (c :: rest) with
    | some q => some q
    | none => searchNumber rest

/-- The format item .2f: two decimals, minus sign taken from the sign of the
value, no padding. -/
def fmtF2 (q : ℚ) : List Char :=
  let n := (roundHalfEven (100 * q)).natAbs
  (if q < 0 then ['-'] else []) ++
    natChars (n / 100) ++ '.' :: [digitChar (n / 10 % 10), digitChar (n % 10)]

/-- Model of placeholder.format(incr) for the placeholders name_output builds:
doubled braces become literal braces, the field 0:.2f renders incr, every
other brace usage is a formatting error. -/
def pyFormat : List Char → ℚ → Option (List Char)
  | [], _ => some []
  | c :: rest, q =>
    if c = '{' then
      match rest with
      | '{' :: r2 => Option.map (fun out => '{' :: out) (pyFormat r2 q)
      | '0' :: ':' :: '.' :: '2' :: 'f' :: '}' :: r2 =>
          Option.map (fun out => fmtF2 q ++ out) (pyFormat r2 q)
      | _ => none
    else if c = '}' then
      match rest with
      | '}' :: r2 => Option.map (fun out => '}' :: out) (pyFormat r2 q)
      | _ => none
    else Option.map (fun out => c :: out) (pyFormat rest q)

/-- name_output from submod.py. A previously processed filename has its tag
number extracted by the search regex and replaced; a fresh filename gets the
template prepended. When the summed increment is nonnegative the two leading
template characters are replaced by brace, brace, plus. Finally the
placeholder is formatted with the increment. -/
def name_output (inputfile : List Char) (seconds : ℚ) : Option (List Char) :=
  match matchProcTag inputfile with
  | some rest =>
    match searchNumber inputfile with
    | none => none
    | some old =>
      let incr := old + seconds
      let ph := tagTemplate ++ rest
      let ph2 := if 0 ≤ incr then '{' :: '{' :: '+' :: ph.drop 2 else ph
      pyFormat ph2 incr
  | none =>
      let incr := seconds
      let ph := tagTemplate ++ inputfile
      let ph2 := if 0 ≤ incr then '{' :: '{' :: '+' :: ph.drop 2 else ph
      pyFormat ph2 incr

/-- The offset tag that name_output produces for a given increment value. -/
def offsetTag (q : ℚ) : List Char :=
  '{' :: ((if 0 ≤ q then '+' :: fmtF2 q else fmtF2 q) ++ tagClose)

/-- The canonical fixed width rendering of m milliseconds, the form every
surviving timestamp below one hundred hours takes on output. -/
def msFormat (m : ℕ) : List Char :=
  [digitChar (m / 3600000 / 10), digitChar (m / 3600000 % 10), ':',
   digitChar (m % 3600000 / 60000 / 10), digitChar (m % 3600000 / 60000 % 10), ':',
   digitChar (m % 60000 / 1000 / 10), digitChar (m % 60000 / 1000 % 10), '.',
   digitChar (m % 1000 / 100), digitChar (m % 1000 / 10 % 10), digitChar (m % 1000 % 10)]

/-! Helper lemmas about digits and decimal renderings. -/

theorem digitChar_isDig {d : ℕ} (h : d < 10) : isDig (digitChar d) = true := by
  interval_cases d <;> decide

theorem digVal_digitChar {d : ℕ} (h : d < 10) : digVal (digitChar d) = d := by
  interval_cases d <;> decide

theorem ne_of_isDig {a b : Char} (ha : isDig a = true) (hb : isDig b = false) : a ≠ b := by
  intro h; rw [h] at ha; rw [ha] at hb; cases hb

theorem digitsVal_nil : digitsVal [] = 0 := rfl

theorem foldl_digits (xs : List Char) (a : ℕ) :
    xs.foldl (fun a c => 10 * a + digVal c) a = a * 10 ^ xs.length + digitsVal xs := by
  induction xs generalizing a with
  | nil =>
      simp only [List.foldl_nil, List.length_nil, pow_zero, mul_one, digitsVal_nil]
      omega
  | cons c cs ih =>
      have hd : digitsVal (c :: cs) = digVal c * 10 ^ cs.length + digitsVal cs := by
        have h0 : digitsVal (c :: cs)
            = cs.foldl (fun a c => 10 * a + digVal c) (10 * 0 + digVal c) := rfl
        rw [h0, ih, Nat.mul_zero, Nat.zero_add]
      rw [List.foldl_cons, ih, hd, List.length_cons]
      ring

theorem digitsVal_cons (c : Char) (cs : List Char) :
    digitsVal (c :: cs) = digVal c * 10 ^ cs.length + digitsVal cs := by
  simpa [digitsVal] using foldl_digits cs (digVal c)

theorem digitsVal_append_one (xs : List Char) (c : Char) :
    digitsVal (xs ++ [c]) = 10 * digitsVal xs + digVal c := by
  simp only [digitsVal, List.foldl_append, List.foldl_cons, List.foldl_nil]

theorem natCharsAux_all_dig (fuel n : ℕ) : (natCharsAux fuel n).all isDig = true := by
  induction fuel generalizing n with
  | zero => simp [natCharsAux]
  | succ f ih =>
      by_cases h : n < 10
      · simp [natCharsAux, h, digitChar_isDig h]
      · simp only [natCharsAux, if_neg h, List.all_append, ih (n / 10), Bool.true_and]
        simp [digitChar_isDig (Nat.mod_lt n (by norm_num))]

theorem natChars_all_dig (n : ℕ) : (natChars n).all isDig = true :=
  natCharsAux_all_dig (n + 1) n

theorem natCharsAux_val (fuel : ℕ) : ∀ n, n < 10 ^ fuel → digitsVal (natCharsAux fuel n) = n := by
  induction fuel with
  | zero => intro n h; interval_cases n; decide
  | succ f ih =>
      intro n h
      by_cases h10 : n < 10
      · simp [natCharsAux, h10, digitsVal_cons, digVal_digitChar h10, digitsVal_nil]
      · have hdiv : n / 10 < 10 ^ f := by
          rw [Nat.div_lt_iff_lt_mul (by norm_num)]
          calc n < 10 ^ (f + 1) := h
          _ = 10 ^ f * 10 := by ring
        simp only [natCharsAux, if_neg h10, digitsVal_append_one, ih (n / 10) hdiv,
          digVal_digitChar (Nat.mod_lt n (by norm_num))]
        omega

theorem natChars_val (n : ℕ) : digitsVal (natChars n) = n :=
  natCharsAux_val (n + 1) n (lt_of_lt_of_le (Nat.lt_pow_self (by norm_num) n)
    (Nat.pow_le_pow_right (by norm_num) (Nat.le_succ n)))

theorem natCharsAux_ne_nil (fuel n : ℕ) : natCharsAux (fuel + 1) n ≠ [] := by
  by_cases h : n < 10 <;> simp [natCharsAux, h]

theorem natChars_ne_nil (n : ℕ) : natChars n ≠ [] := natCharsAux_ne_nil n n

theorem natCharsAux_lt10 {fuel n : ℕ} (hf : 1 ≤ fuel) (h : n < 10) :
    natCharsAux fuel n = [digitChar n] := by
  cases fuel with
  | zero => omega
  | succ f => simp [natCharsAux, h]

theorem natChars_lt10 {n : ℕ} (h : n < 10) : natChars n = [digitChar n] :=
  natCharsAux_lt10 (by omega) h

theorem natChars_two {n : ℕ} (h1 : 10 ≤ n) (h2 : n < 100) :
    natChars n = [digitChar (n / 10), digitChar (n % 10)] := by
  have hq : n / 10 < 10 := by omega
  unfold natChars
  rw [natCharsAux, if_neg (by omega), natCharsAux_lt10 (by omega) hq]
  rfl

/-! Helper lemmas connecting rational floor and modulo with natural division. -/

theorem floor_div_nat (a b : ℕ) (hb : 0 < b) : ⌊(a : ℚ) / (b : ℚ)⌋ = ((a / b : ℕ) : ℤ) := by
  have hbq : (0 : ℚ) < (b : ℚ) := by exact_mod_cast hb
  rw [Int.floor_eq_iff]
  constructor
  · rw [le_div_iff hbq]
    exact_mod_cast Nat.div_mul_le_self a b
  · rw [div_lt_iff hbq]
    have h1 : b * (a / b) + a % b = a := Nat.div_add_mod a b
    have h2 : a % b < b := Nat.mod_lt a hb
    have h1q : (b : ℚ) * ((a / b : ℕ) : ℚ) + ((a % b : ℕ) : ℚ) = (a : ℚ) := by exact_mod_cast h1
    have h2q : ((a % b : ℕ) : ℚ) < (b : ℚ) := by exact_mod_cast h2
    have hexp : (((a / b : ℕ) : ℚ) + 1) * (b : ℚ) = (b : ℚ) * ((a / b : ℕ) : ℚ) + (b : ℚ) := by
      ring
    rw [Int.cast_natCast, hexp]
    linarith

theorem qmod_natq (a b : ℕ) (hb : 0 < b) :
    qmod ((a : ℚ) / 1000) (b : ℚ) = ((a % (1000 * b) : ℕ) : ℚ) / 1000 := by
  have hq : (a : ℚ) / 1000 / (b : ℚ) = (a : ℚ) / ((1000 * b : ℕ) : ℚ) := by
    push_cast; rw [div_div]
  have hfl : ⌊(a : ℚ) / 1000 / (b : ℚ)⌋ = ((a / (1000 * b) : ℕ) : ℤ) := by
    rw [hq, floor_div_nat a (1000 * b) (by omega)]
  have hdm : (1000 * b) * (a / (1000 * b)) + a % (1000 * b) = a := Nat.div_add_mod a (1000 * b)
  have hdmq : ((1000 * b : ℕ) : ℚ) * ((a / (1000 * b) : ℕ) : ℚ) + ((a % (1000 * b) : ℕ) : ℚ)
      = (a : ℚ) := by exact_mod_cast hdm
  have hbq : ((1000 * b : ℕ) : ℚ) = 1000 * (b : ℚ) := by push_cast; ring
  rw [hbq] at hdmq
  unfold qmod
  rw [hfl, Int.cast_natCast]
  linear_combination -hdmq / 1000

theorem roundHalfEven_intCast (n : ℤ) : roundHalfEven ((n : ℤ) : ℚ) = n := by
  unfold roundHalfEven
  rw [Int.floor_intCast]
  norm_num

/-! Helper lemmas about the fixed width formatting of millisecond values. -/

theorem digitChar_zero : digitChar 0 = '0' := rfl

theorem fmt2_lt100 {n : ℕ} (h : n < 100) :
    fmt2 n = [digitChar (n / 10), digitChar (n % 10)] := by
  unfold fmt2; rw [if_pos h]

theorem fmt63_ms {k : ℕ} (hk : k < 60000) :
    fmt63 ((k : ℚ) / 1000) =
      [digitChar (k / 1000 / 10), digitChar (k / 1000 % 10), '.',
       digitChar (k % 1000 / 100), digitChar (k % 1000 / 10 % 10), digitChar (k % 1000 % 10)] := by
  have h1 : (1000 : ℚ) * ((k : ℚ) / 1000) = ((k : ℤ) : ℚ) := by push_cast; ring
  simp only [fmt63]
  rw [h1, roundHalfEven_intCast, Int.toNat_natCast]
  by_cases hip : k / 1000 < 10
  · rw [natChars_lt10 hip]
    have h10 : k / 1000 / 10 = 0 := by omega
    have h11 : k / 1000 % 10 = k / 1000 := by omega
    rw [h10, h11, digitChar_zero]
    rfl
  · rw [natChars_two (by omega) (by omega)]
    rfl

theorem formatQ_ms {m : ℕ} (hm : m < 360000000) : formatQ ((m : ℚ) / 1000) = msFormat m := by
  have hH : ⌊(m : ℚ) / 1000 / 3600⌋ = ((m / 3600000 : ℕ) : ℤ) := by
    rw [show (m : ℚ) / 1000 / 3600 = (m : ℚ) / ((3600000 : ℕ) : ℚ) by
      push_cast; rw [div_div]; norm_num]
    exact floor_div_nat m 3600000 (by norm_num)
  have hq1 : qmod ((m : ℚ) / 1000) 3600 = ((m % 3600000 : ℕ) : ℚ) / 1000 := by
    have h := qmod_natq m 3600 (by norm_num)
    norm_num at h ⊢
    exact h
  have hM : ⌊((m % 3600000 : ℕ) : ℚ) / 1000 / 60⌋ = ((m % 3600000 / 60000 : ℕ) : ℤ) := by
    rw [show ((m % 3600000 : ℕ) : ℚ) / 1000 / 60 = ((m % 3600000 : ℕ) : ℚ) / ((60000 : ℕ) : ℚ) by
      push_cast; rw [div_div]; norm_num]
    exact floor_div_nat (m % 3600000) 60000 (by norm_num)
  have hq2 : qmod (((m % 3600000 : ℕ) : ℚ) / 1000) 60 = ((m % 60000 : ℕ) : ℚ) / 1000 := by
    have h := qmod_natq (m % 3600000) 60 (by norm_num)
    norm_num at h ⊢
    exact h
  have hHlt : m / 3600000 < 100 := by omega
  have hMlt : m % 3600000 / 60000 < 100 := by omega
  unfold formatQ
  rw [hH, hq1, hM, hq2, Int.toNat_natCast, Int.toNat_natCast,
    fmt2_lt100 hHlt, fmt2_lt100 hMlt, fmt63_ms (Nat.mod_lt m (by norm_num))]
  rw [show m % 60000 % 1000 = m % 1000 from Nat.mod_mod_of_dvd m (by norm_num)]
  rfl

/-! Helper lemmas about parsing the fixed width rendering back. -/

theorem digitsVal_pair (x y : Char) : digitsVal [x, y] = 10 * digVal x + digVal y := by
  simp [digitsVal_cons, digitsVal_nil]
  ring

theorem digitsVal_triple (x y z : Char) :
    digitsVal [x, y, z] = 100 * digVal x + 10 * digVal y + digVal z := by
  simp [digitsVal_cons, digitsVal_nil]
  ring

theorem pyInt_two {a b : ℕ} (ha : a < 10) (hb : b < 10) :
    pyInt [digitChar a, digitChar b] = some (10 * a + b) := by
  unfold pyInt
  rw [if_pos]
  · rw [digitsVal_pair, digVal_digitChar ha, digVal_digitChar hb]
  · exact ⟨by simp, by simp [digitChar_isDig ha, digitChar_isDig hb]⟩

theorem pyFloat_six {a b c d e : ℕ}
    (ha : a < 10) (hb : b < 10) (hc : c < 10) (hd : d < 10) (he : e < 10) :
    pyFloat [digitChar a, digitChar b, '.', digitChar c, digitChar d, digitChar e]
      = some (((10 * a + b : ℕ) : ℚ) + ((100 * c + 10 * d + e : ℕ) : ℚ) / 1000) := by
  have hna : digitChar a ≠ '.' := ne_of_isDig (digitChar_isDig ha) (by decide)
  have hnb : digitChar b ≠ '.' := ne_of_isDig (digitChar_isDig hb) (by decide)
  have hip : ([digitChar a, digitChar b, '.', digitChar c, digitChar d,
      digitChar e].takeWhile (fun x => x ≠ '.')) = [digitChar a, digitChar b] := by
    simp [List.takeWhile_cons, hna, hnb]
  simp only [pyFloat, hip]
  norm_num
  refine ⟨⟨Or.inl (by simp), ⟨digitChar_isDig ha, digitChar_isDig hb⟩,
    digitChar_isDig hc, digitChar_isDig hd, digitChar_isDig he⟩, ?_⟩
  rw [digitsVal_pair, digitsVal_triple, digVal_digitChar ha, digVal_digitChar hb,
    digVal_digitChar hc, digVal_digitChar hd, digVal_digitChar he]
  push_cast
  ring

theorem parseTS_msFormat {m : ℕ} (hm : m < 360000000) :
    parseTS (msFormat m) = some ((m : ℚ) / 1000) := by
  have hH : m / 3600000 < 100 := by omega
  have hs1 : pySlice (msFormat m) 0 2
      = [digitChar (m / 3600000 / 10), digitChar (m / 3600000 % 10)] := rfl
  have hs2 : pySlice (msFormat m) 3 5
      = [digitChar (m % 3600000 / 60000 / 10), digitChar (m % 3600000 / 60000 % 10)] := rfl
  have hs3 : pySlice (msFormat m) 6 12
      = [digitChar (m % 60000 / 1000 / 10), digitChar (m % 60000 / 1000 % 10), '.',
         digitChar (m % 1000 / 100), digitChar (m % 1000 / 10 % 10), digitChar (m % 1000 % 10)] :=
    rfl
  unfold parseTS
  rw [hs1, hs2, hs3, pyInt_two (by omega) (by omega), pyInt_two (by omega) (by omega),
    pyFloat_six (by omega) (by omega) (by omega) (by omega) (by omega)]
  have hA : 10 * (m / 3600000 / 10) + m / 3600000 % 10 = m / 3600000 := by omega
  have hB : 10 * (m % 3600000 / 60000 / 10) + m % 3600000 / 60000 % 10
      = m % 3600000 / 60000 := by omega
  have hC : 10 * (m % 60000 / 1000 / 10) + m % 60000 / 1000 % 10 = m % 60000 / 1000 := by omega
  have hD : 100 * (m % 1000 / 100) + 10 * (m % 1000 / 10 % 10) + m % 1000 % 10 = m % 1000 := by
    omega
  rw [hA, hB, hC, hD]
  have hdecomp : 3600000 * (m / 3600000) + 60000 * (m % 3600000 / 60000)
      + 1000 * (m % 60000 / 1000) + m % 1000 = m := by omega
  have hq : ((3600000 * (m / 3600000) + 60000 * (m % 3600000 / 60000)
      + 1000 * (m % 60000 / 1000) + m % 1000 : ℕ) : ℚ) = (m : ℚ) := by
    exact_mod_cast hdecomp
  push_cast at hq
  refine congrArg some ?_
  linear_combination hq / 1000

/-- Bridge lemma: process_time applied to a canonical rendering. -/
theorem process_time_msFormat {m : ℕ} (hm : m < 360000000) (incr : ℚ) :
    process_time (msFormat m) incr =
      if 0 ≤ (m : ℚ) / 1000 + incr then some (formatQ ((m : ℚ) / 1000 + incr))
      else some DELETED := by
  unfold process_time
  rw [parseTS_msFormat hm]

theorem colon_mem_formatQ (t : ℚ) : ':' ∈ formatQ t := by
  unfold formatQ
  simp

theorem formatQ_ne_DELETED (t : ℚ) : formatQ t ≠ DELETED := by
  intro h
  have hmem := colon_mem_formatQ t
  rw [h] at hmem
  exact absurd hmem (by decide)

/-! Claims about the Time Codec, process_time. -/

/-- Claim C5: process_time returns the deletion sentinel exactly when the shifted
total is strictly negative, and a total of exactly zero formats as 00:00:00.000. -/
theorem claim5_thm (ts : List Char) (t incr : ℚ) (hp : parseTS ts = some t) :
    (process_time ts incr = some DELETED ↔ t + incr < 0) ∧
    (t + incr = 0 → process_time ts incr = some "00:00:00.000".toList) := by
  simp only [process_time, hp]
  constructor
  · by_cases h : 0 ≤ t + incr
    · rw [if_pos h]
      constructor
      · intro he
        exact absurd (Option.some.inj he) (formatQ_ne_DELETED _)
      · intro hlt; linarith
    · rw [if_neg h]
      exact ⟨fun _ => not_le.mp h, fun _ => rfl⟩
  · intro h0
    rw [if_pos (le_of_eq h0.symm), h0]
    decide

/-- Witness for claim C5 at a concrete input where the offset exactly cancels
the timestamp. -/
theorem claim5_witness :
    (process_time "00:00:05.000".toList (-5) = some DELETED ↔ (5 : ℚ) + (-5) < 0) ∧
    ((5 : ℚ) + (-5) = 0 → process_time "00:00:05.000".toList (-5) = some "00:00:00.000".toList) :=
  claim5_thm "00:00:05.000".toList 5 (-5) (by decide)

/-- Claim C4 counterexample: with the valid timestamp 00:00:00.000 and the
sub-millisecond offset 1/2500 of a second, the shifted total is nonnegative,
yet shifting the formatted result back by the negated offset produces the
deletion sentinel rather than the original timestamp. -/
theorem claim4_counterexample :
    parseTS "00:00:00.000".toList = some 0 ∧
    (0 : ℚ) + 1 / 2500 ≥ 0 ∧
    process_time "00:00:00.000".toList (1 / 2500) = some "00:00:00.000".toList ∧
    process_time "00:00:00.000".toList (-(1 / 2500)) = some DELETED ∧
    some DELETED ≠ some "00:00:00.000".toList :=
  ⟨by decide, by norm_num, by decide, by decide, by decide⟩

/-- Claim C4 (amended): for canonical timestamps and offsets that are a whole
number of milliseconds, with both totals nonnegative and below one hundred
hours, shifting and then shifting back recovers the original timestamp
exactly. -/
theorem claim4_thm (m k : ℕ) (hm : m < 360000000) (hk : k < 360000000) :
    process_time (msFormat m) (((k : ℚ) - (m : ℚ)) / 1000) = some (msFormat k) ∧
    process_time (msFormat k) (((m : ℚ) - (k : ℚ)) / 1000) = some (msFormat m) := by
  have key : ∀ a b : ℕ, a < 360000000 → b < 360000000 →
      process_time (msFormat a) (((b : ℚ) - (a : ℚ)) / 1000) = some (msFormat b) := by
    intro a b ha hb
    rw [process_time_msFormat ha]
    have harg : (a : ℚ) / 1000 + ((b : ℚ) - (a : ℚ)) / 1000 = (b : ℚ) / 1000 := by ring
    rw [harg, if_pos (by positivity), formatQ_ms hb]
  exact ⟨key m k hm hk, key k m hk hm⟩

/-- Witness for claim C4, the round trip between 00:00:00.243 and
00:00:05.243 under an offset of five seconds. -/
theorem claim4_witness :
    process_time (msFormat 243) ((((5243 : ℕ) : ℚ) - ((243 : ℕ) : ℚ)) / 1000)
      = some (msFormat 5243) ∧
    process_time (msFormat 5243) ((((243 : ℕ) : ℚ) - ((5243 : ℕ) : ℚ)) / 1000)
      = some (msFormat 243) :=
  claim4_thm 243 5243 (by norm_num) (by norm_num)

/-- Claim C9 counterexample: a sub-millisecond offset makes the formatter round
the seconds field up to 60, producing 00:00:60.000, whose seconds field is not
below sixty. -/
theorem claim9_counterexample :
    process_time "00:00:59.999".toList (9 / 10000) = some "00:00:60.000".toList ∧
    pyInt (pySlice "00:00:60.000".toList 6 8) = some 60 :=
  ⟨by decide, by decide⟩

/-- Claim C9 (amended): when the shifted total is a whole number of
milliseconds below one hundred hours, the emitted timestamp is the canonical
rendering, its seconds field is strictly below sixty, and it re-parses to the
same total. -/
theorem claim9_thm (ts : List Char) (t incr : ℚ) (m : ℕ) (hp : parseTS ts = some t)
    (htot : t + incr = (m : ℚ) / 1000) (hm : m < 360000000) :
    process_time ts incr = some (msFormat m) ∧
    pyInt (pySlice (msFormat m) 6 8) = some (m % 60000 / 1000) ∧
    m % 60000 / 1000 < 60 ∧
    parseTS (msFormat m) = some (t + incr) := by
  have h1 : process_time ts incr = some (formatQ (t + incr)) := by
    simp only [process_time, hp]
    rw [if_pos (by rw [htot]; positivity)]
  refine ⟨?_, ?_, by omega, ?_⟩
  · rw [h1, htot, formatQ_ms hm]
  · have hsl : pySlice (msFormat m) 6 8
        = [digitChar (m % 60000 / 1000 / 10), digitChar (m % 60000 / 1000 % 10)] := rfl
    rw [hsl, pyInt_two (by omega) (by omega)]
    congr 1
    omega
  · rw [parseTS_msFormat hm, htot]

/-- Witness for claim C9: shifting 00:00:59.999 by one millisecond lands on
the minute boundary and formats as 00:01:00.000. -/
theorem claim9_witness :
    process_time "00:00:59.999".toList (1 / 1000) = some (msFormat 60000) ∧
    pyInt (pySlice (msFormat 60000) 6 8) = some (60000 % 60000 / 1000) ∧
    60000 % 60000 / 1000 < 60 ∧
    parseTS (msFormat 60000) = some ((59999 : ℚ) / 1000 + 1 / 1000) :=
  claim9_thm "00:00:59.999".toList ((59999 : ℚ) / 1000) (1 / 1000) 60000
    (by decide) (by norm_num) (by norm_num)

/-! Claims about the Line Transformer, process_line. -/

/-- Claim C6: when the shifted start is negative but the shifted end is
nonnegative, the line becomes a forced start at zero followed by the shifted
end, and the block is not deleted. -/
theorem claim6_thm (line : List Char) (s t1 t2 : ℚ)
    (h1 : parseTS (pySlice line 0 12) = some t1)
    (h2 : parseTS (pySlice line 17 29) = some t2)
    (hneg : t1 + s < 0) (hpos : 0 ≤ t2 + s) :
    process_line line s = some ("00:00:00.000 --> ".toList ++ formatQ (t2 + s) ++ ['\n']) ∧
    process_line line s ≠ some DELETED := by
  have hstart : process_time (pySlice line 0 12) s = some DELETED := by
    simp only [process_time, h1]
    rw [if_neg (by linarith)]
  have hend : process_time (pySlice line 17 29) s = some (formatQ (t2 + s)) := by
    simp only [process_time, h2]
    rw [if_pos hpos]
  have hmain : process_line line s
      = some ("00:00:00.000 --> ".toList ++ formatQ (t2 + s) ++ ['\n']) := by
    simp only [process_line, hstart, hend]
    rw [if_pos trivial, if_neg (formatQ_ne_DELETED (t2 + s))]
  refine ⟨hmain, ?_⟩
  rw [hmain]
  intro h
  have hx := Option.some.inj h
  have hmem : ':' ∈ "00:00:00.000 --> ".toList ++ formatQ (t2 + s) ++ ['\n'] := by
    refine List.mem_append.mpr (Or.inl (List.mem_append.mpr (Or.inl ?_)))
    decide
  rw [hx] at hmem
  exact absurd hmem (by decide)

/-- Witness for claim C6, the scenario where 00:00:03.802 to 00:00:15.314
shifted by minus ten seconds becomes a forced start at zero. -/
theorem claim6_witness :
    process_line "00:00:03.802 --> 00:00:15.314\n".toList (-10) =
      some "00:00:00.000 --> 00:00:05.314\n".toList := by
  have h := (claim6_thm "00:00:03.802 --> 00:00:15.314\n".toList (-10)
    (3802 / 1000) (15314 / 1000) (by decide) (by decide) (by norm_num) (by norm_num)).1
  rw [h]
  decide

/-- Claim C2 counterexample: a line whose shifted start survives while the
shifted end is deleted is not turned into the deletion marker; the sentinel
text is embedded after the arrow instead. -/
theorem claim2_counterexample :
    process_line "00:00:20.000 --> 00:00:05.000\n".toList (-10) =
      some ("00:00:10.000 --> ".toList ++ DELETED ++ ['\n']) ∧
    some ("00:00:10.000 --> ".toList ++ DELETED ++ ['\n']) ≠ some DELETED :=
  ⟨by decide, by decide⟩

/-- Claim C2 (amended): when the shifted start survives and the shifted end is
deleted, process_line emits an ordinary line consisting of the shifted start,
the arrow, and the sentinel text, and this result is not the deletion
marker. -/
theorem claim2_thm (line : List Char) (s : ℚ) (v : List Char)
    (hstart : process_time (pySlice line 0 12) s = some v) (hv : v ≠ DELETED)
    (hend : process_time (pySlice line 17 29) s = some DELETED) :
    process_line line s = some (v ++ " --> ".toList ++ DELETED ++ ['\n']) ∧
    process_line line s ≠ some DELETED := by
  have hmain : process_line line s = some (v ++ " --> ".toList ++ DELETED ++ ['\n']) := by
    simp only [process_line, hstart, hend]
    rw [if_neg hv]
  refine ⟨hmain, ?_⟩
  rw [hmain]
  intro h
  have hx := Option.some.inj h
  have hlen := congrArg List.length hx
  simp only [List.length_append, List.length_cons, List.length_nil, DELETED] at hlen
  omega

/-- Witness for claim C2 at a concrete line whose end shifts below zero while
the start survives. -/
theorem claim2_witness :
    process_line "00:00:20.000 --> 00:00:05.000\n".toList (-10) =
      some ("00:00:10.000".toList ++ " --> ".toList ++ DELETED ++ ['\n']) ∧
    process_line "00:00:20.000 --> 00:00:05.000\n".toList (-10) ≠ some DELETED :=
  claim2_thm "00:00:20.000 --> 00:00:05.000\n".toList (-10) "00:00:10.000".toList
    (by decide) (by decide) (by decide)

/-! Claims about the Stream Converter, the shared loop of convert_vtt and
convert_srt. -/

/-- While suppressing, every non-matching non-blank line is discarded, and the
blank separator is discarded too while restoring the copying state. -/
theorem convertLines_skip (sep : Char) (s : ℚ) (texts : List (List Char))
    (h : ∀ x ∈ texts, timeLineMatch sep x = false ∧ x ≠ ['\n'])
    (rest : List (List Char)) (c : ℕ) :
    convertLines sep s (texts ++ ['\n'] :: rest) true c = convertLines sep s rest false c := by
  induction texts with
  | nil => simp [convertLines, timeLineMatch]
  | cons x xs ih =>
      have hx := h x (List.mem_cons_self x xs)
      have ihx := ih (fun y hy => h y (List.mem_cons_of_mem x hy))
      simp [convertLines, hx.1, hx.2, ihx]

/-- Claim C8: a line that does not match the time pattern, reached while not
suppressing, is written to the output byte for byte unchanged, in its original
position, with the suppression state and the deleted count unchanged. -/
theorem claim8_thm (sep : Char) (s : ℚ) (line : List Char) (rest : List (List Char)) (c : ℕ)
    (hm : timeLineMatch sep line = false) :
    convertLines sep s (line :: rest) false c =
      Option.map (fun p => (line :: p.1, p.2)) (convertLines sep s rest false c) := by
  cases h : convertLines sep s rest false c with
  | none => simp [convertLines, hm, h]
  | some p => simp [convertLines, hm, h]

/-- Witness for claim C8 on a plain subtitle text line. -/
theorem claim8_witness :
    convertLines '.' 1 ["Hello\n".toList] false 0 =
      Option.map (fun p => ("Hello\n".toList :: p.1, p.2)) (convertLines '.' 1 [] false 0) :=
  claim8_thm '.' 1 "Hello\n".toList [] 0 (by decide)

/-- Claim C1 counterexample: a fully deleted block makes the converter write
the sentinel text into the output, since the source sets the skip flag without
skipping the write of the current line; the deleted count is one and the text
lines of the block are discarded, but the marker does appear in the output. -/
theorem claim1_counterexample :
    convert_vtt ["1\n".toList, "00:00:03.802 --> 00:00:05.314\n".toList, "Hi\n".toList,
      "\n".toList, "2\n".toList, "00:00:13.802 --> 00:00:15.314\n".toList, "Yo\n".toList]
      (-10) =
      some (["1\n".toList, DELETED, "2\n".toList, "00:00:03.802 --> 00:00:05.314\n".toList,
        "Yo\n".toList], 1) ∧
    DELETED ∈ ["1\n".toList, DELETED, "2\n".toList, "00:00:03.802 --> 00:00:05.314\n".toList,
      "Yo\n".toList] :=
  ⟨by decide, by decide⟩

/-- Claim C1 (amended): for a block whose time line fully deletes, the
converter writes the deletion sentinel text in place of the time line,
increments the deleted count exactly once regardless of the number of text
lines, discards the text lines up to and including the blank separator, and
returns to the copying state. -/
theorem claim1_thm (sep : Char) (s : ℚ) (tl : List Char) (texts rest : List (List Char)) (c : ℕ)
    (hm : timeLineMatch sep tl = true)
    (hd : process_line (if sep = ',' then pyReplace tl ',' '.' else tl) s = some DELETED)
    (ht : ∀ x ∈ texts, timeLineMatch sep x = false ∧ x ≠ ['\n']) :
    convertLines sep s (tl :: (texts ++ ['\n'] :: rest)) false c =
      Option.map (fun p => (DELETED :: p.1, p.2)) (convertLines sep s rest false (c + 1)) := by
  have hskip := convertLines_skip sep s texts ht rest (c + 1)
  cases h : convertLines sep s rest false (c + 1) with
  | none => simp [convertLines, hm, hd, hskip, h]
  | some p => simp [convertLines, hm, hd, hskip, h]

/-- Witness for claim C1 on a block with two text lines followed by a further
block; the count rises by exactly one. -/
theorem claim1_witness :
    convertLines '.' (-10) ("00:00:03.802 --> 00:00:05.314\n".toList ::
      (["Hello\n".toList, "world\n".toList] ++ ['\n'] :: ["2\n".toList])) false 0 =
      Option.map (fun p => (DELETED :: p.1, p.2))
        (convertLines '.' (-10) ["2\n".toList] false (0 + 1)) :=
  claim1_thm '.' (-10) "00:00:03.802 --> 00:00:05.314\n".toList
    ["Hello\n".toList, "world\n".toList] ["2\n".toList] 0
    (by decide) (by decide) (by decide)

/-- Claim C7: convert_srt hands the transformer the line with commas replaced
by periods; a surviving result is written with every period translated back to
a comma, while the deletion sentinel is written through untranslated. -/
theorem claim7_thm (line : List Char) (rest : List (List Char)) (skip : Bool) (c : ℕ) (s : ℚ)
    (v : List Char) (hm : timeLineMatch ',' line = true)
    (hv : process_line (pyReplace line ',' '.') s = some v) :
    (v ≠ DELETED → convertLines ',' s (line :: rest) skip c =
      Option.map (fun p => (pyReplace v '.' ',' :: p.1, p.2))
        (convertLines ',' s rest skip c)) ∧
    (v = DELETED → convertLines ',' s (line :: rest) skip c =
      Option.map (fun p => (v :: p.1, p.2)) (convertLines ',' s rest true (c + 1))) := by
  constructor
  · intro hne
    cases h : convertLines ',' s rest skip c with
    | none => simp [convertLines, hm, hv, hne, h]
    | some p => simp [convertLines, hm, hv, hne, h]
  · intro hdel
    subst hdel
    cases h : convertLines ',' s rest true (c + 1) with
    | none => simp [convertLines, hm, hv, h]
    | some p => simp [convertLines, hm, hv, h]

/-- Witness for claim C7, the srt scenario with offset one second where the
comma decimal separators are restored on output. -/
theorem claim7_witness :
    convert_srt ["00:00:00,243 --> 00:00:02,110\n".toList] 1 =
      some (["00:00:01,243 --> 00:00:03,110\n".toList], 0) := by
  have h := (claim7_thm "00:00:00,243 --> 00:00:02,110\n".toList [] false 0 1
    "00:00:01.243 --> 00:00:03.110\n".toList (by decide) (by decide)).1 (by decide)
  unfold convert_srt
  rw [h]
  decide

/-! Helper lemmas about the Output Namer. -/

theorem takeWhile_digits_append (xs : List Char) (hxs : ∀ x ∈ xs, isDig x = true)
    (c : Char) (hc : isDig c = false) (ys : List Char) :
    (xs ++ c :: ys).takeWhile isDig = xs := by
  induction xs with
  | nil => simp [List.takeWhile_cons, hc]
  | cons a as ih =>
      have ha := hxs a (List.mem_cons_self a as)
      have ihr := ih (fun y hy => hxs y (List.mem_cons_of_mem a hy))
      simp [List.takeWhile_cons, ha, ihr]

theorem roundHalfEven_nonneg {q : ℚ} (h : 0 ≤ q) : 0 ≤ roundHalfEven q := by
  have hf := Int.floor_nonneg.mpr h
  simp only [roundHalfEven]
  split_ifs <;> omega

theorem roundHalfEven_nonpos {q : ℚ} (h : q < 0) : roundHalfEven q ≤ 0 := by
  have hf : ⌊q⌋ < 0 := by
    have hle : ((⌊q⌋ : ℤ) : ℚ) < 0 := lt_of_le_of_lt (Int.floor_le q) h
    exact_mod_cast hle
  simp only [roundHalfEven]
  split_ifs <;> omega

/-- The number regex matched right after a sign at the head: sign, the digits
of ip, a period, two digit characters, then any non-digit continuation. -/
theorem matchNumAt_tag (sgn : Char) (hsgn : sgn = '+' ∨ sgn = '-') (ip : ℕ) (dA dB : Char)
    (hA : isDig dA = true) (hB : isDig dB = true) (zs : List Char) :
    matchNumAt (sgn :: (natChars ip ++ '.' :: dA :: dB :: '_' :: zs))
      = some ((if sgn = '-' then (-1 : ℚ) else 1)
          * ((ip : ℚ) + ((digitsVal [dA, dB] : ℕ) : ℚ) / 100)) := by
  have hall : ∀ x ∈ natChars ip, isDig x = true :=
    fun x hx => List.all_eq_true.mp (natChars_all_dig ip) x hx
  have h1 : (natChars ip ++ '.' :: dA :: dB :: '_' :: zs).takeWhile isDig = natChars ip :=
    takeWhile_digits_append (natChars ip) hall '.' (by decide) _
  have h2 : (natChars ip ++ '.' :: dA :: dB :: '_' :: zs).drop (natChars ip).length
      = '.' :: dA :: dB :: '_' :: zs := List.drop_left _ _
  have h3 : (dA :: dB :: '_' :: zs) = [dA, dB] ++ '_' :: zs := rfl
  have h4 : (dA :: dB :: '_' :: zs).takeWhile isDig = [dA, dB] := by
    rw [h3]
    exact takeWhile_digits_append [dA, dB] (by simp [hA, hB]) '_' (by decide) zs
  simp only [matchNumAt]
  rw [if_pos hsgn, h1, h2]
  simp only [h4]
  rw [if_neg (natChars_ne_nil ip), if_neg (by simp)]
  rw [natChars_val]
  norm_num

/-- The head of a rendered offset tag is rejected by the number regex, so the
search moves to the sign at index one. -/
theorem matchNumAt_lbrace (l : List Char) : matchNumAt ('{' :: l) = none := by
  simp only [matchNumAt]
  rw [if_neg (by decide)]

/-- fmtF2 of a nonnegative value, split into its digit components. -/
theorem fmtF2_nonneg (q : ℚ) (hq : 0 ≤ q) :
    fmtF2 q = natChars ((roundHalfEven (100 * q)).natAbs / 100) ++
      '.' :: [digitChar ((roundHalfEven (100 * q)).natAbs / 10 % 10),
              digitChar ((roundHalfEven (100 * q)).natAbs % 10)] := by
  unfold fmtF2
  rw [if_neg (not_lt.mpr hq)]
  rfl

/-- fmtF2 of a negative value: a minus sign followed by the digits. -/
theorem fmtF2_neg (q : ℚ) (hq : q < 0) :
    fmtF2 q = '-' :: (natChars ((roundHalfEven (100 * q)).natAbs / 100) ++
      '.' :: [digitChar ((roundHalfEven (100 * q)).natAbs / 10 % 10),
              digitChar ((roundHalfEven (100 * q)).natAbs % 10)]) := by
  unfold fmtF2
  rw [if_pos hq]
  rfl

/-- The cast value of the two fractional digit characters of fmtF2. -/
theorem digitsVal_fmtF2_frac (n : ℕ) :
    digitsVal [digitChar (n / 10 % 10), digitChar (n % 10)] = n % 100 := by
  rw [digitsVal_pair, digVal_digitChar (by omega), digVal_digitChar (by omega)]
  omega

/-- The anchored tag regex consumes exactly the rendered tag and returns the
remainder of the filename. -/
theorem matchProcTag_offsetTag (q : ℚ) (F : List Char) :
    matchProcTag (offsetTag q ++ F) = some F := by
  have key : ∀ sgn : Char, (sgn = '+' ∨ sgn = '-') → ∀ ip : ℕ, ∀ dA dB : Char,
      isDig dA = true → isDig dB = true →
      matchProcTag ('{' :: sgn :: (natChars ip ++ '.' :: dA :: dB :: ('_' :: 'S' :: 'e' :: 'c' :: '}' :: '_' :: F))) = some F := by
    intro sgn hsgn ip dA dB hA hB
    have hall : ∀ x ∈ natChars ip, isDig x = true :=
      fun x hx => List.all_eq_true.mp (natChars_all_dig ip) x hx
    have h1 : (natChars ip ++ '.' :: dA :: dB :: '_' :: 'S' :: 'e' :: 'c' :: '}' :: '_' :: F).takeWhile isDig
        = natChars ip := takeWhile_digits_append (natChars ip) hall '.' (by decide) _
    have h2 : (natChars ip ++ '.' :: dA :: dB :: '_' :: 'S' :: 'e' :: 'c' :: '}' :: '_' :: F).drop
        (natChars ip).length = '.' :: dA :: dB :: '_' :: 'S' :: 'e' :: 'c' :: '}' :: '_' :: F :=
      List.drop_left _ _
    have h3 : (dA :: dB :: '_' :: 'S' :: 'e' :: 'c' :: '}' :: '_' :: F)
        = [dA, dB] ++ '_' :: 'S' :: 'e' :: 'c' :: '}' :: '_' :: F := rfl
    have h4 : (dA :: dB :: '_' :: 'S' :: 'e' :: 'c' :: '}' :: '_' :: F).takeWhile isDig
        = [dA, dB] := by
      rw [h3]
      exact takeWhile_digits_append [dA, dB] (by simp [hA, hB]) '_' (by decide) _
    simp only [matchProcTag]
    rw [if_pos ⟨trivial, hsgn⟩, h1, h2]
    simp only [h4]
    rw [if_neg (natChars_ne_nil ip), if_neg (by simp)]
    rfl
  unfold offsetTag
  by_cases hq : 0 ≤ q
  · rw [if_pos hq, fmtF2_nonneg q hq]
    have := key '+' (Or.inl rfl) ((roundHalfEven (100 * q)).natAbs / 100)
      (digitChar ((roundHalfEven (100 * q)).natAbs / 10 % 10))
      (digitChar ((roundHalfEven (100 * q)).natAbs % 10))
      (digitChar_isDig (by omega)) (digitChar_isDig (by omega))
    simpa [tagClose, List.append_assoc] using this
  · rw [if_neg hq, fmtF2_neg q (not_le.mp hq)]
    have := key '-' (Or.inr rfl) ((roundHalfEven (100 * q)).natAbs / 100)
      (digitChar ((roundHalfEven (100 * q)).natAbs / 10 % 10))
      (digitChar ((roundHalfEven (100 * q)).natAbs % 10))
      (digitChar_isDig (by omega)) (digitChar_isDig (by omega))
    simpa [tagClose, List.append_assoc] using this

/-- The number regex search across a filename that starts with a rendered tag
finds exactly the tag value rounded to two decimals. -/
theorem searchNumber_offsetTag (q : ℚ) (F : List Char) :
    searchNumber (offsetTag q ++ F) = some (((roundHalfEven (100 * q) : ℤ) : ℚ) / 100) := by
  have hval : ∀ n : ℕ,
      ((n / 100 : ℕ) : ℚ) + ((n % 100 : ℕ) : ℚ) / 100 = (n : ℚ) / 100 := by
    intro n
    have hn : 100 * (n / 100) + n % 100 = n := by omega
    have hnq : 100 * ((n / 100 : ℕ) : ℚ) + ((n % 100 : ℕ) : ℚ) = (n : ℚ) := by
      exact_mod_cast hn
    linarith
  unfold offsetTag
  by_cases hq : 0 ≤ q
  · rw [if_pos hq, fmtF2_nonneg q hq]
    have habs : (((roundHalfEven (100 * q)).natAbs : ℕ) : ℚ)
        = ((roundHalfEven (100 * q) : ℤ) : ℚ) := by
      have h0 : 0 ≤ roundHalfEven (100 * q) := roundHalfEven_nonneg (by positivity)
      have hcast := congrArg (fun z : ℤ => (z : ℚ)) (Int.natAbs_of_nonneg h0)
      simp only [Int.cast_natCast] at hcast
      exact hcast
    have hm := matchNumAt_tag '+' (Or.inl rfl) ((roundHalfEven (100 * q)).natAbs / 100)
      (digitChar ((roundHalfEven (100 * q)).natAbs / 10 % 10))
      (digitChar ((roundHalfEven (100 * q)).natAbs % 10))
      (digitChar_isDig (by omega)) (digitChar_isDig (by omega))
      ('S' :: 'e' :: 'c' :: '}' :: '_' :: F)
    rw [digitsVal_fmtF2_frac] at hm
    have hshape : ('{' :: (('+' :: (natChars ((roundHalfEven (100 * q)).natAbs / 100) ++
        '.' :: [digitChar ((roundHalfEven (100 * q)).natAbs / 10 % 10),
                digitChar ((roundHalfEven (100 * q)).natAbs % 10)])) ++ tagClose)) ++ F
        = '{' :: '+' :: (natChars ((roundHalfEven (100 * q)).natAbs / 100) ++
          '.' :: digitChar ((roundHalfEven (100 * q)).natAbs / 10 % 10) ::
          digitChar ((roundHalfEven (100 * q)).natAbs % 10) ::
          '_' :: 'S' :: 'e' :: 'c' :: '}' :: '_' :: F) := by
      simp [tagClose, List.append_assoc]
    rw [hshape]
    simp only [searchNumber, matchNumAt_lbrace, hm]
    refine congrArg some ?_
    rw [show (if ('+' : Char) = '-' then (-1 : ℚ) else 1) = 1 from by decide,
      one_mul, hval, habs]
  · have hqlt := not_le.mp hq
    rw [if_neg hq, fmtF2_neg q hqlt]
    have habs : (((roundHalfEven (100 * q)).natAbs : ℕ) : ℚ)
        = -((roundHalfEven (100 * q) : ℤ) : ℚ) := by
      have h0 : roundHalfEven (100 * q) ≤ 0 :=
        roundHalfEven_nonpos (mul_neg_of_pos_of_neg (by norm_num) hqlt)
      have hcast := congrArg (fun z : ℤ => (z : ℚ)) (Int.ofNat_natAbs_of_nonpos h0)
      simp only [Int.cast_natCast, Int.cast_neg] at hcast
      exact hcast
    have hm := matchNumAt_tag '-' (Or.inr rfl) ((roundHalfEven (100 * q)).natAbs / 100)
      (digitChar ((roundHalfEven (100 * q)).natAbs / 10 % 10))
      (digitChar ((roundHalfEven (100 * q)).natAbs % 10))
      (digitChar_isDig (by omega)) (digitChar_isDig (by omega))
      ('S' :: 'e' :: 'c' :: '}' :: '_' :: F)
    rw [digitsVal_fmtF2_frac] at hm
    have hshape : ('{' :: (('-' :: (natChars ((roundHalfEven (100 * q)).natAbs / 100) ++
        '.' :: [digitChar ((roundHalfEven (100 * q)).natAbs / 10 % 10),
                digitChar ((roundHalfEven (100 * q)).natAbs % 10)])) ++ tagClose)) ++ F
        = '{' :: '-' :: (natChars ((roundHalfEven (100 * q)).natAbs / 100) ++
          '.' :: digitChar ((roundHalfEven (100 * q)).natAbs / 10 % 10) ::
          digitChar ((roundHalfEven (100 * q)).natAbs % 10) ::
          '_' :: 'S' :: 'e' :: 'c' :: '}' :: '_' :: F) := by
      simp [tagClose, List.append_assoc]
    rw [hshape]
    simp only [searchNumber, matchNumAt_lbrace, hm]
    refine congrArg some ?_
    rw [if_pos trivial, hval, habs]
    ring

/-- One step of the format scanner over an ordinary character. -/
theorem pyFormat_char {c : Char} (hc1 : c ≠ '{') (hc2 : c ≠ '}') (r : List Char) (q : ℚ) :
    pyFormat (c :: r) q = Option.map (fun out => c :: out) (pyFormat r q) := by
  rw [pyFormat.eq_def]
  simp only [if_neg hc1, if_neg hc2]

/-- Formatting a string without brace characters is the identity. -/
theorem pyFormat_plain (cs : List Char) (h1 : '{' ∉ cs) (h2 : '}' ∉ cs) (q : ℚ) :
    pyFormat cs q = some cs := by
  induction cs with
  | nil => rfl
  | cons c cr ih =>
      have hc1 : c ≠ '{' := fun h => h1 (h ▸ List.mem_cons_self c cr)
      have hc2 : c ≠ '}' := fun h => h2 (h ▸ List.mem_cons_self c cr)
      have ihr := ih (fun h => h1 (List.mem_cons_of_mem c h))
        (fun h => h2 (List.mem_cons_of_mem c h))
      rw [pyFormat_char hc1 hc2, ihr]
      rfl

/-- Formatting either placeholder shape that name_output builds yields the
rendered offset tag followed by the brace free remainder. -/
theorem pyFormat_template (F : List Char) (h1 : '{' ∉ F) (h2 : '}' ∉ F) (q : ℚ) :
    pyFormat (if 0 ≤ q then '{' :: '{' :: '+' :: (tagTemplate ++ F).drop 2
      else tagTemplate ++ F) q = some (offsetTag q ++ F) := by
  have hplain := pyFormat_plain F h1 h2 q
  have hus : pyFormat ('_' :: F) q = some ('_' :: F) := by
    rw [pyFormat_char (by decide) (by decide), hplain]
    rfl
  by_cases hq : 0 ≤ q
  · rw [if_pos hq]
    have hdrop : (tagTemplate ++ F).drop 2
        = '{' :: '0' :: ':' :: '.' :: '2' :: 'f' :: '}' ::
          '_' :: 'S' :: 'e' :: 'c' :: '}' :: '}' :: '_' :: F := rfl
    rw [hdrop]
    simp [pyFormat, hus, offsetTag, tagClose, hq, List.append_assoc]
  · rw [if_neg hq]
    have hsh : tagTemplate ++ F
        = '{' :: '{' :: '{' :: '0' :: ':' :: '.' :: '2' :: 'f' :: '}' ::
          '_' :: 'S' :: 'e' :: 'c' :: '}' :: '}' :: '_' :: F := rfl
    rw [hsh]
    simp [pyFormat, hus, offsetTag, tagClose, hq, List.append_assoc]

/-- A brace free filename is never recognised as already processed. -/
theorem matchProcTag_eq_none (F : List Char) (h1 : '{' ∉ F) : matchProcTag F = none := by
  match F with
  | [] => rfl
  | [c] => rfl
  | c0 :: c1 :: rest =>
      have hc0 : c0 ≠ '{' := fun h => h1 (h ▸ List.mem_cons_self c0 (c1 :: rest))
      simp [matchProcTag, hc0]

/-- name_output on a fresh, brace free filename prepends one rendered tag. -/
theorem name_output_fresh (F : List Char) (h1 : '{' ∉ F) (h2 : '}' ∉ F) (S : ℚ) :
    name_output F S = some (offsetTag S ++ F) := by
  unfold name_output
  rw [matchProcTag_eq_none F h1]
  exact pyFormat_template F h1 h2 S

/-- name_output on a tagged filename with brace free remainder replaces the
tag, using the parsed two decimal tag value plus the new offset. -/
theorem name_output_tagged (S1 : ℚ) (F : List Char) (h1 : '{' ∉ F) (h2 : '}' ∉ F) (S2 : ℚ) :
    name_output (offsetTag S1 ++ F) S2
      = some (offsetTag (((roundHalfEven (100 * S1) : ℤ) : ℚ) / 100 + S2) ++ F) := by
  unfold name_output
  rw [matchProcTag_offsetTag S1 F, searchNumber_offsetTag S1 F]
  exact pyFormat_template F h1 h2 _

/-! Claims about the Output Namer, name_output. -/

/-- Claim C3 counterexample: with the fresh filename movie.srt and the offsets
0.004 and 0.004, two successive applications produce the tag +0.00 while a
single application with the summed offset 0.008 produces the tag +0.01, so the
composed tag differs from the one shot tag. -/
theorem claim3_counterexample :
    name_output "movie.srt".toList (1 / 250) = some "\x7b+0.00_Sec\x7d_movie.srt".toList ∧
    name_output "\x7b+0.00_Sec\x7d_movie.srt".toList (1 / 250)
      = some "\x7b+0.00_Sec\x7d_movie.srt".toList ∧
    name_output "movie.srt".toList (1 / 250 + 1 / 250)
      = some "\x7b+0.01_Sec\x7d_movie.srt".toList ∧
    ("\x7b+0.00_Sec\x7d_movie.srt".toList : List Char)
      ≠ "\x7b+0.01_Sec\x7d_movie.srt".toList :=
  ⟨by decide, by decide, by decide, by decide⟩

/-- Claim C3 (amended): for a fresh brace free filename and a first offset that
is an exact multiple of a hundredth of a second, so that the rendered tag
stores it without rounding loss, applying name_output with S1 and then with S2
gives exactly the result of applying it once with S1 plus S2; moreover the
first application produces a single tag prepended to the untouched
filename. -/
theorem claim3_thm (F : List Char) (h1 : '{' ∉ F) (h2 : '}' ∉ F) (j : ℤ) (S1 S2 : ℚ)
    (hS1 : S1 = (j : ℚ) / 100) :
    name_output F S1 = some (offsetTag S1 ++ F) ∧
    name_output (offsetTag S1 ++ F) S2 = name_output F (S1 + S2) := by
  refine ⟨name_output_fresh F h1 h2 S1, ?_⟩
  have hround : ((roundHalfEven (100 * S1) : ℤ) : ℚ) / 100 = S1 := by
    rw [hS1, show (100 : ℚ) * ((j : ℚ) / 100) = ((j : ℤ) : ℚ) by ring,
      roundHalfEven_intCast]
  rw [name_output_tagged S1 F h1 h2 S2, name_output_fresh F h1 h2 (S1 + S2), hround]

/-- Witness for claim C3, the naming scenario: movie.srt with offset 2.5 then
offset minus 0.5 equals one application with offset 2. -/
theorem claim3_witness :
    name_output "movie.srt".toList (5 / 2) = some (offsetTag (5 / 2) ++ "movie.srt".toList) ∧
    name_output (offsetTag (5 / 2) ++ "movie.srt".toList) (-1 / 2)
      = name_output "movie.srt".toList (5 / 2 + -1 / 2) :=
  claim3_thm "movie.srt".toList (by decide) (by decide) 250 (5 / 2) (-1 / 2) (by norm_num)

/-- Claim C10 counterexample: a filename containing a brace character makes
the final formatting step fail, the model of the ValueError str.format raises
on the stray brace, so the Output Namer does not return an output name. -/
theorem claim10_counterexample : name_output "mo\x7bvie.srt".toList 1 = none := by decide

/-- Claim C10 (amended): for every filename free of brace characters and every
offset, the Output Namer succeeds and returns the rendered offset tag
prepended to the otherwise unchanged filename. -/
theorem claim10_thm (F : List Char) (h1 : '{' ∉ F) (h2 : '}' ∉ F) (S : ℚ) :
    name_output F S = some (offsetTag S ++ F) :=
  name_output_fresh F h1 h2 S

/-- Witness for claim C10 on a plain filename. -/
theorem claim10_witness :
    name_output "movie.srt".toList 1 = some (offsetTag 1 ++ "movie.srt".toList) :=
  claim10_thm "movie.srt".toList (by decide) (by decide) 1

end Submod
